import Mathlib

/-!
Shallow embedding of the Namada staking-ledger core (`proof_of_stake/src/types.rs`),
the RPC query path (`apps/.../rpc.rs`) and the 32-byte hash type
(`shared/src/types/hash.rs`), with theorems checking the natural-language
specification against the code.

Machine integers are embedded as `Nat`/`Int`; a Rust operation that panics
(overflow of `+` on `u64`, `.expect` on a `None`) is embedded as an
`Option`-returning function whose `none` case is the panic/abort.
-/

namespace Namada

/-- The largest `u64` value plus one: `2^64`. -/
def U64_BOUND : Nat := 2 ^ 64

/-- `Epoch` from `proof_of_stake/src/types.rs`: a wrapper around a `u64`
counter. The `val` field is the wrapped counter, as a natural number. -/
structure Epoch where
  val : Nat
deriving DecidableEq, Repr

/-- `Epoch::checked_sub` from `types.rs`: `self - rhs`, `None` if
`rhs.0 > self.0`, otherwise `Some(Self(self.0 - rhs.0))`. -/
def Epoch.checked_sub (a rhs : Epoch) : Option Epoch :=
  if rhs.val > a.val then none else some ⟨a.val - rhs.val⟩

/-- `Epoch::sub_or_default` from `types.rs`:
`self.checked_sub(rhs).unwrap_or_default()`, the default being `Epoch(0)`. -/
def Epoch.sub_or_default (a rhs : Epoch) : Epoch :=
  (a.checked_sub rhs).getD ⟨0⟩

/-- `impl Add<u64> for Epoch` from `types.rs`: `Epoch(self.0 + rhs)`.
Rust `u64` addition panics when the sum exceeds `u64::MAX`; the panic is
embedded as `none`. -/
def Epoch.add (a : Epoch) (rhs : Nat) : Option Epoch :=
  if a.val + rhs < U64_BOUND then some ⟨a.val + rhs⟩ else none

/-- `Epoch::iter_range` from `types.rs`: the iterator over
`(start_ix..start_ix + len).map(Epoch::from)`, materialised as a list.
The `u64` addition `start_ix + len` panics on overflow (embedded as
`none`). -/
def Epoch.iter_range (e : Epoch) (len : Nat) : Option (List Epoch) :=
  if e.val + len < U64_BOUND then
    some ((List.range len).map fun i => ⟨e.val + i⟩)
  else none

/-! ## Fixed-point decimals and voting power

`rust_decimal::Decimal` is a scaled integer: a 96-bit signed mantissa `num`
together with a decimal scale, denoting the value `num / 10 ^ scale`.
Multiplication multiplies mantissas and adds scales (exact whenever the
product mantissa stays in range, which holds at every input appearing in
the claims). `to_u64` returns `None` for a negative value, otherwise
truncates the fraction toward zero and returns `None` when the integer
part exceeds `u64::MAX`. -/

/-- Embedding of `rust_decimal::Decimal`: the value `num / 10 ^ scale`. -/
structure Decimal where
  num : Int
  scale : Nat
deriving DecidableEq, Repr

/-- `Decimal::from(int: u64)`: an integer decimal with scale 0. -/
def Decimal.ofU64 (n : Nat) : Decimal := ⟨(n : Int), 0⟩

/-- `Decimal` multiplication: mantissas multiply, scales add (the exact,
in-range case of `rust_decimal`'s `Mul`). -/
def Decimal.mul (a b : Decimal) : Decimal := ⟨a.num * b.num, a.scale + b.scale⟩

/-- `rust_decimal`'s `ToPrimitive::to_u64`: `None` on a negative value,
otherwise the fraction is truncated (floor, for a non-negative value) and
the result is `None` when it exceeds `u64::MAX`. -/
def Decimal.to_u64 (d : Decimal) : Option Nat :=
  if d.num < 0 then none
  else
    let t := d.num.toNat / 10 ^ d.scale
    if t < U64_BOUND then some t else none

/-- `decimal_mult_u64` from `types.rs`: `(dec * Decimal::from(int)).to_u64()`,
where the `.expect("Product is out of bounds")` panic is embedded as
`none`. -/
def decimal_mult_u64 (dec : Decimal) (int : Nat) : Option Nat :=
  (dec.mul (Decimal.ofU64 int)).to_u64

/-- `into_tm_voting_power` from `types.rs`:
`i64::try_from(decimal_mult_u64(votes_per_token, tokens)).expect(...)`.
Both `expect` panics (product out of `u64` bounds, value out of `i64`
bounds) are embedded as `none`. -/
def into_tm_voting_power (votes_per_token : Decimal) (tokens : Nat) :
    Option Int :=
  match decimal_mult_u64 votes_per_token tokens with
  | none => none
  | some prod => if prod ≤ 2 ^ 63 - 1 then some ((prod : Nat) : Int) else none

/-! ## 32-byte hashes (`shared/src/types/hash.rs`)

Bytes are embedded as natural numbers below 256, strings as `List Char`. -/

/-- A hex digit `n < 16` as the uppercase character `{:02X}` uses. -/
def hexDigitUpper (n : Nat) : Char :=
  if n < 10 then Char.ofNat (48 + n) else Char.ofNat (55 + n)

/-- A hex digit `n < 16` as a lowercase character (the `hex::encode`
alphabet). -/
def hexDigitLower (n : Nat) : Char :=
  if n < 10 then Char.ofNat (48 + n) else Char.ofNat (87 + n)

/-- One byte as `{:02X}`: two uppercase hex characters. -/
def byteToHexUpper (b : Nat) : List Char :=
  [hexDigitUpper (b / 16), hexDigitUpper (b % 16)]

/-- One byte as two lowercase hex characters (`hex::encode`). -/
def byteToHexLower (b : Nat) : List Char :=
  [hexDigitLower (b / 16), hexDigitLower (b % 16)]

/-- `Hash` from `hash.rs`: a 32-byte value. -/
structure Hash where
  bytes : List Nat
deriving DecidableEq, Repr

/-- `impl Display for Hash`: every byte written with `{:02X}`. -/
def Hash.toHexUpper (h : Hash) : List Char :=
  (h.bytes.map byteToHexUpper).flatten

/-- The failure kinds of `hex::FromHex` for a fixed-length array (wrapped
in `Error::FromStringError` by `hash.rs`). -/
inductive HashStrError
  | InvalidStringLength
  | InvalidHexCharacter
deriving DecidableEq, Repr

/-- The value of a hex character, accepting both cases (the `hex` crate's
digit table); `none` for a non-hex character. -/
def hexDigitVal (c : Char) : Option Nat :=
  if 48 ≤ c.toNat ∧ c.toNat ≤ 57 then some (c.toNat - 48)
  else if 65 ≤ c.toNat ∧ c.toNat ≤ 70 then some (c.toNat - 55)
  else if 97 ≤ c.toNat ∧ c.toNat ≤ 102 then some (c.toNat - 87)
  else none

/-- Decode a character list two hex digits at a time into bytes, as the
`hex` crate does; `none` on a non-hex character or a dangling digit. -/
def decodeHexPairs : List Char → Option (List Nat)
  | [] => some []
  | c1 :: c2 :: rest =>
    match hexDigitVal c1, hexDigitVal c2, decodeHexPairs rest with
    | some hi, some lo, some bs => some ((16 * hi + lo) :: bs)
    | _, _, _ => none
  | [_] => none

/-- `impl TryFrom<&str> for Hash` from `hash.rs`, via
`<[u8; 32]>::from_hex`: the string must be exactly 64 characters, all hex
digits of either case. -/
def Hash.tryFromStr (s : List Char) : Except HashStrError Hash :=
  if s.length ≠ 64 then Except.error HashStrError.InvalidStringLength
  else
    match decodeHexPairs s with
    | some bs => Except.ok ⟨bs⟩
    | none => Except.error HashStrError.InvalidHexCharacter

/-- A character in the alphabet `{:02X}` emits: `0`–`9` or `A`–`F`. -/
def isUpperHexDigit (c : Char) : Prop :=
  (48 ≤ c.toNat ∧ c.toNat ≤ 57) ∨ (65 ≤ c.toNat ∧ c.toNat ≤ 70)

instance : DecidablePred isUpperHexDigit := fun c => by
  unfold isUpperHexDigit
  infer_instance

/-! ## RPC query paths (`apps/src/lib/node/ledger/rpc.rs`)

Strings are embedded as `List Char`. -/

/-- Rust's `str::split_once(sep)`: split at the first occurrence of the
separator, `none` when the separator does not occur. -/
def splitOnce (sep : Char) : List Char → Option (List Char × List Char)
  | [] => none
  | c :: cs =>
    if c = sep then some ([], cs)
    else
      match splitOnce sep cs with
      | some (a, b) => some (c :: a, b)
      | none => none

/-- Rust's `str::split(sep)`: all separator-delimited segments
(`split("")` is `[""]`). -/
def splitAll (sep : Char) : List Char → List (List Char)
  | [] => [[]]
  | c :: cs =>
    match splitAll sep cs with
    | [] => [[c]]
    | seg :: rest =>
      if c = sep then [] :: seg :: rest else (c :: seg) :: rest

/-- Join segments with a separator character between them. -/
def joinSep (sep : Char) : List (List Char) → List Char
  | [] => []
  | [s] => s
  | s :: rest => s ++ sep :: joinSep sep rest

/-- Modelled from the spec: `storage::Key` is not under `src/`. Per the
spec (§6), a storage key is a sequence of segments "prefix-delimited by
`/`"; a valid key is a non-empty sequence of non-empty segments. -/
structure Key where
  segments : List (List Char)
deriving DecidableEq

/-- Modelled from the spec: the malformed-storage-key condition
("unparseable storage key", §7). -/
inductive KeyError
  | EmptySegment
deriving DecidableEq

/-- `Display` of a storage key: segments joined by `/`. -/
def Key.toStr (k : Key) : List Char := joinSep '/' k.segments

/-- `storage::Key::parse`, modelled from the spec: split on `/` and
reject empty segments as the malformed-key condition. -/
def Key.parse (s : List Char) : Except KeyError Key :=
  if (splitAll '/' s).all (fun seg => decide (seg ≠ [])) then
    Except.ok ⟨splitAll '/' s⟩
  else Except.error KeyError.EmptySegment

/-- A well-formed storage key: non-empty segments, none containing the
separator. -/
def Key.wf (k : Key) : Prop :=
  k.segments ≠ [] ∧ ∀ seg ∈ k.segments, seg ≠ [] ∧ '/' ∉ seg

/-- Modelled from the spec: the masp `AssetType` (external collaborator)
is displayed as the lowercase hex encoding of its 32-byte identifier and
parsed back from that hex. -/
structure AssetType where
  identifier : List Nat
deriving DecidableEq

/-- The invalid-asset-type condition ("invalid asset-type token", §7). -/
inductive AssetTypeError
  | InvalidAssetType
deriving DecidableEq

/-- `Display` of an asset type: lowercase hex of the identifier bytes. -/
def AssetType.toStr (a : AssetType) : List Char :=
  (a.identifier.map byteToHexLower).flatten

/-- `AssetType::from_str`, modelled from the spec: 64 hex characters
decoding to the 32 identifier bytes, otherwise the invalid-asset-type
condition. -/
def AssetType.parse (s : List Char) : Except AssetTypeError AssetType :=
  if s.length ≠ 64 then Except.error AssetTypeError.InvalidAssetType
  else
    match decodeHexPairs s with
    | some bs => Except.ok ⟨bs⟩
    | none => Except.error AssetTypeError.InvalidAssetType

/-- A well-formed asset type: a 32-byte identifier. -/
def AssetType.wf (a : AssetType) : Prop :=
  a.identifier.length = 32 ∧ ∀ b ∈ a.identifier, b < 256

def DRY_RUN_TX_PATH : List Char := "dry_run_tx".toList

def EPOCH_PATH : List Char := "epoch".toList

def RESULTS_PATH : List Char := "results".toList

def VALUE_PREFIX : List Char := "value".toList

def PREFIX_PREFIX : List Char := "prefix".toList

def HAS_KEY_PREFIX : List Char := "has_key".toList

/-- Modelled from the spec: `CONVERSION_KEY_PREFIX` is imported from a
module not under `src/`; the spec (§8) calls it the conversion prefix of
the asset path. Its concrete spelling only needs to be distinct from the
other prefixes and slash-free. -/
def CONVERSION_KEY_PREFIX : List Char := "conv".toList

/-- `Path` from `rpc.rs`: the RPC query path. -/
inductive Path where
  | DryRunTx
  | Epoch
  | Results
  | Value (key : Key)
  | Prefix (key : Key)
  | HasKey (key : Key)
  | Conversion (asset : AssetType)
deriving DecidableEq

/-- `PathParseError` from `rpc.rs`. -/
inductive PathParseError where
  | InvalidPath (s : List Char)
  | InvalidStorageKey (e : KeyError)
  | InvalidAssetType (e : AssetTypeError)
deriving DecidableEq

/-- `impl Display for Path` from `rpc.rs`. -/
def Path.format : Path → List Char
  | Path.DryRunTx => DRY_RUN_TX_PATH
  | Path.Epoch => EPOCH_PATH
  | Path.Results => RESULTS_PATH
  | Path.Value k => VALUE_PREFIX ++ '/' :: k.toStr
  | Path.Prefix k => PREFIX_PREFIX ++ '/' :: k.toStr
  | Path.HasKey k => HAS_KEY_PREFIX ++ '/' :: k.toStr
  | Path.Conversion a => CONVERSION_KEY_PREFIX ++ '/' :: a.toStr

/-- `impl FromStr for Path` from `rpc.rs`: match the three bare paths,
else split once on `/` and dispatch on the prefix; anything else is the
unrecognized-path condition. -/
def Path.fromStr (s : List Char) : Except PathParseError Path :=
  if s = DRY_RUN_TX_PATH then Except.ok Path.DryRunTx
  else if s = EPOCH_PATH then Except.ok Path.Epoch
  else if s = RESULTS_PATH then Except.ok Path.Results
  else
    match splitOnce '/' s with
    | some (pfx, rest) =>
      if pfx = VALUE_PREFIX then
        match Key.parse rest with
        | Except.ok k => Except.ok (Path.Value k)
        | Except.error e => Except.error (PathParseError.InvalidStorageKey e)
      else if pfx = PREFIX_PREFIX then
        match Key.parse rest with
        | Except.ok k => Except.ok (Path.Prefix k)
        | Except.error e => Except.error (PathParseError.InvalidStorageKey e)
      else if pfx = HAS_KEY_PREFIX then
        match Key.parse rest with
        | Except.ok k => Except.ok (Path.HasKey k)
        | Except.error e => Except.error (PathParseError.InvalidStorageKey e)
      else if pfx = CONVERSION_KEY_PREFIX then
        match AssetType.parse rest with
        | Except.ok a => Except.ok (Path.Conversion a)
        | Except.error e => Except.error (PathParseError.InvalidAssetType e)
      else Except.error (PathParseError.InvalidPath s)
    | none => Except.error (PathParseError.InvalidPath s)

/-- A well-formed query path: its storage key or asset type is valid. -/
def Path.wf : Path → Prop
  | Path.Value k => Key.wf k
  | Path.Prefix k => Key.wf k
  | Path.HasKey k => Key.wf k
  | Path.Conversion a => AssetType.wf a
  | _ => True

/-! ## Validators and validator sets -/

/-- `WeightedValidator` from `types.rs`: a validator's address with its
bonded stake (`u64`). The `bonded_stake` field is declared first, so the
derived lexicographic ordering compares it first. -/
structure WeightedValidator (A : Type) where
  bonded_stake : Nat
  address : A
deriving DecidableEq, Repr

/-- The `Ord` derived for `WeightedValidator` in `types.rs`: Rust's
`derive(Ord)` compares fields lexicographically in declaration order, so
`bonded_stake` is compared first and `address` breaks ties. -/
def WeightedValidator.cmp [LinearOrder A] (a b : WeightedValidator A) :
    Ordering :=
  match compare a.bonded_stake b.bonded_stake with
  | Ordering.eq => compare a.address b.address
  | o => o

/-- `ValidatorSet` from `types.rs`: the active and inactive sets of
weighted validators. The `BTreeSet`s are embedded as lists. -/
structure ValidatorSet (A : Type) where
  active : List (WeightedValidator A)
  inactive : List (WeightedValidator A)
deriving DecidableEq, Repr

/-- The descending ranking relation on weighted validators: `a` ranks no
lower than `b` in the derived ordering (`cmp a b ≠ Less`). -/
def WeightedValidator.ranksGe [LinearOrder A] (a b : WeightedValidator A) :
    Prop :=
  WeightedValidator.cmp a b ≠ Ordering.lt

instance [LinearOrder A] :
    DecidableRel (WeightedValidator.ranksGe (A := A)) := fun a b =>
  decidable_of_iff (WeightedValidator.cmp a b ≠ Ordering.lt) Iff.rfl

/-! ## Bonds and unbonds

The Rust `HashMap`s keyed by epochs are embedded as association lists;
the well-formedness invariant of a `HashMap` (no duplicate keys) becomes
a `Nodup` hypothesis where a proof needs it. -/

/-- The add-or-insert step of the `Add` impls of `Bond` and `Unbond` in
`types.rs`: if the key is already present, add the value to the existing
entry (`*value += v`), otherwise insert the pair. -/
def addOrInsert [DecidableEq κ] [Add τ] :
    List (κ × τ) → κ → τ → List (κ × τ)
  | [], k, v => [(k, v)]
  | (k', v') :: rest, k, v =>
    if k' = k then (k', v' + v) :: rest
    else (k', v') :: addOrInsert rest k v

/-- The key-wise map merge of the `Add` impls of `Bond` and `Unbond` in
`types.rs`: iterate over `rhs` and add-or-insert each entry into `self`
("we add values where a key is present on both sides"). -/
def mergeDeltas [DecidableEq κ] [Add τ] (self rhs : List (κ × τ)) :
    List (κ × τ) :=
  rhs.foldl (fun acc kv => addOrInsert acc kv.1 kv.2) self

/-- The delta-map sum of `Bond::sum`/`Unbond::sum` in `types.rs`:
`fold(Default::default(), |acc, (_k, amount)| acc + *amount)`. -/
def sumDeltas [Zero τ] [Add τ] (l : List (κ × τ)) : τ :=
  l.foldl (fun acc kv => acc + kv.2) 0

/-- First-occurrence lookup in an association list with zero default
(the value a `HashMap` holds at a key, with 0 for an absent key). -/
def lookupD [DecidableEq κ] [Zero τ] : List (κ × τ) → κ → τ
  | [], _ => 0
  | (k', v) :: rest, k => if k' = k then v else lookupD rest k

/-- `Bond` from `types.rs`: bonded positive deltas keyed by epoch, plus a
single aggregate negative delta. -/
structure Bond (Token : Type) where
  pos_deltas : List (Epoch × Token)
  neg_deltas : Token
deriving DecidableEq

/-- `Unbond` from `types.rs`: deltas keyed by (bond epoch, unbond epoch). -/
structure Unbond (Token : Type) where
  deltas : List ((Epoch × Epoch) × Token)
deriving DecidableEq

/-- `Bond::sum` from `types.rs`: the fold of all positive deltas minus the
aggregate negative delta, with the token's own subtraction. -/
def Bond.sum [Zero Token] [Add Token] [Sub Token] (b : Bond Token) : Token :=
  sumDeltas b.pos_deltas - b.neg_deltas

/-- `impl Add for Bond` from `types.rs`: key-wise merge of the positive
delta maps (summing on collision) and sum of the negative deltas. -/
def Bond.add [Add Token] (a b : Bond Token) : Bond Token :=
  ⟨mergeDeltas a.pos_deltas b.pos_deltas, a.neg_deltas + b.neg_deltas⟩

/-- `Unbond::sum` from `types.rs`: the fold of all deltas. -/
def Unbond.sum [Zero Token] [Add Token] (u : Unbond Token) : Token :=
  sumDeltas u.deltas

/-- `impl Add for Unbond` from `types.rs`: key-wise merge of the delta
maps, summing on collision. -/
def Unbond.add [Add Token] (a b : Unbond Token) : Unbond Token :=
  ⟨mergeDeltas a.deltas b.deltas⟩

/-- Modelled from the spec: the concrete token `Amount` type instantiated
for `Token` is not under `src/`. Per the spec (§4.3), `Bond::sum` uses
"checked/saturating arithmetic appropriate to the token's representation"
and an underflowing subtraction "is a protocol invariant violation to be
reported, not silently clamped": the unsigned token is embedded as `Nat`
and the reported violation as `none`. -/
def Bond.sum_checked (b : Bond Nat) : Option Nat :=
  let p := sumDeltas b.pos_deltas
  if b.neg_deltas ≤ p then some (p - b.neg_deltas) else none

/-- Modelled from the spec: the validator-set recomputation algorithm
(§4.5) is not under `src/` (only the `ValidatorSet` data type is).
Following the spec's words: collect all Candidate validators with their
current bonded stake, sort by the `WeightedValidator` ordering (stake
descending as primary key, tie-broken by address), take the top
`max_validator_slots` into `active`, remainder into `inactive`. -/
def recompute_validator_set [LinearOrder A]
    (candidates : List (WeightedValidator A)) (max_validator_slots : Nat) :
    ValidatorSet A :=
  let ranked := candidates.insertionSort WeightedValidator.ranksGe
  { active := ranked.take max_validator_slots
    inactive := ranked.drop max_validator_slots }

end Namada

namespace Namada

/-! ## Claims C5, C6, C7, C10 -/

/-- C5: voting-power conversion truncates toward the floor, not rounding:
`decimal_mult(0.5, 10) = 5` and `decimal_mult(0.333…, 9) = 2` (with
`0.333…` the 28-digit decimal `0.3333333333333333333333333333`); and a
rate/amount pair whose scaled product exceeds `2^63 - 1` makes
`into_tm_voting_power` signal the out-of-range fatal condition (`none`)
rather than wrap. -/
theorem decimal_mult_floor_and_tm_overflow :
    decimal_mult_u64 ⟨5, 1⟩ 10 = some 5 ∧
    decimal_mult_u64 ⟨3333333333333333333333333333, 28⟩ 9 = some 2 ∧
    ∀ (r : Decimal) (t p : Nat), decimal_mult_u64 r t = some p →
      2 ^ 63 - 1 < p → into_tm_voting_power r t = none := by
  refine ⟨by decide, by decide, ?_⟩
  intro r t p hp hgt
  simp only [into_tm_voting_power, hp]
  rw [if_neg (by omega)]

/-- Witness for C5 at a concrete overflowing input: rate `2^63` (an
integer decimal), one token. -/
theorem decimal_mult_floor_and_tm_overflow_witness :
    into_tm_voting_power ⟨9223372036854775808, 0⟩ 1 = none := by
  have h := decimal_mult_floor_and_tm_overflow.2.2 ⟨9223372036854775808, 0⟩ 1
    9223372036854775808 (by decide) (by decide)
  exact h

/-- C6: epoch addition of an offset never wraps: when `e.val + n` exceeds
the `u64` range the operation aborts (`none`), and otherwise it returns
exactly `e.val + n` — never a wrapped value. -/
theorem epoch_add_no_wraparound (e : Epoch) (n : Nat) :
    (U64_BOUND ≤ e.val + n → Epoch.add e n = none) ∧
    (e.val + n < U64_BOUND → Epoch.add e n = some ⟨e.val + n⟩) := by
  constructor
  · intro h
    simp only [U64_BOUND] at h
    simp only [Epoch.add, U64_BOUND]
    rw [if_neg (by omega)]
  · intro h
    simp only [Epoch.add, if_pos h]

/-- Witness for C6: `Epoch(u64::MAX) + 1` aborts, `Epoch(3) + 4 = Epoch(7)`. -/
theorem epoch_add_no_wraparound_witness :
    Epoch.add ⟨2 ^ 64 - 1⟩ 1 = none ∧ Epoch.add ⟨3⟩ 4 = some ⟨7⟩ :=
  ⟨(epoch_add_no_wraparound ⟨2 ^ 64 - 1⟩ 1).1 (by decide),
   (epoch_add_no_wraparound ⟨3⟩ 4).2 (by decide)⟩

/-- C7: `checked_sub` is absent exactly when the subtrahend is larger,
otherwise the exact difference; `sub_or_default` is `checked_sub` when
present and `Epoch(0)` otherwise; and `iter_range`, whenever its internal
`u64` addition does not overflow, yields exactly the `n` consecutive
epochs `e, e+1, …, e+n-1`. -/
theorem epoch_sub_and_iter_range (a b e : Epoch) (n : Nat) :
    (a.checked_sub b = none ↔ b.val > a.val) ∧
    (b.val ≤ a.val → a.checked_sub b = some ⟨a.val - b.val⟩) ∧
    (∀ c, a.checked_sub b = some c → a.sub_or_default b = c) ∧
    (a.checked_sub b = none → a.sub_or_default b = ⟨0⟩) ∧
    (e.val + n < U64_BOUND →
      ∃ l, e.iter_range n = some l ∧ l.length = n ∧
        ∀ i, i < n → l.get? i = some ⟨e.val + i⟩) := by
  refine ⟨?_, ?_, ?_, ?_, ?_⟩
  · unfold Epoch.checked_sub
    by_cases h : b.val > a.val <;> simp [h]
  · intro h
    simp [Epoch.checked_sub, show ¬ b.val > a.val by omega]
  · intro c hc
    simp [Epoch.sub_or_default, hc]
  · intro hn
    simp [Epoch.sub_or_default, hn]
  · intro h
    refine ⟨(List.range n).map fun i => ⟨e.val + i⟩, ?_, by simp, ?_⟩
    · simp [Epoch.iter_range, h]
    · intro i hi
      simp [List.get?_eq_getElem?, List.getElem?_map, List.getElem?_range hi]

/-- Witness for C7 at the spec's concrete examples:
`Epoch(3).checked_sub(Epoch(5))` absent, `Epoch(3).sub_or_default(Epoch(5))
= Epoch(0)`, and `Epoch(2).iter_range(3) = [2, 3, 4]`. -/
theorem epoch_sub_and_iter_range_witness :
    Epoch.checked_sub ⟨3⟩ ⟨5⟩ = none ∧
    Epoch.sub_or_default ⟨3⟩ ⟨5⟩ = ⟨0⟩ ∧
    Epoch.iter_range ⟨2⟩ 3 = some [⟨2⟩, ⟨3⟩, ⟨4⟩] := by
  have h := epoch_sub_and_iter_range ⟨3⟩ ⟨5⟩ ⟨2⟩ 3
  refine ⟨h.1.mpr (by decide), h.2.2.2.1 (h.1.mpr (by decide)), ?_⟩
  obtain ⟨l, hl, hlen, hget⟩ := h.2.2.2.2 (by decide)
  rw [hl]
  congr 1
  have h0 := hget 0 (by decide)
  have h1 := hget 1 (by decide)
  have h2 := hget 2 (by decide)
  match l, hlen with
  | [a, b, c], _ =>
    simp only [List.get?] at h0 h1 h2
    simp only [Option.some.injEq] at h0 h1 h2
    simp [h0, h1, h2]

/-- C10: whenever `into_tm_voting_power` returns a value, that value lies
in `[0, 2^63 - 1]`: the scaled product is computed in unsigned form before
the conversion to the signed consensus type, so a negative voting power is
never reported. -/
theorem into_tm_voting_power_nonneg (r : Decimal) (t : Nat) (v : Int)
    (h : into_tm_voting_power r t = some v) :
    0 ≤ v ∧ v ≤ 2 ^ 63 - 1 := by
  unfold into_tm_voting_power at h
  cases hd : decimal_mult_u64 r t with
  | none => simp only [hd] at h; exact absurd h (by simp)
  | some p =>
    simp only [hd] at h
    by_cases hp : p ≤ 2 ^ 63 - 1
    · rw [if_pos hp] at h
      cases h
      constructor
      · exact Int.ofNat_nonneg p
      · omega
    · rw [if_neg hp] at h
      exact absurd h (by simp)

/-- Witness for C10 at rate `0.5`, amount `10`: voting power `5`. -/
theorem into_tm_voting_power_nonneg_witness :
    0 ≤ (5 : Int) ∧ (5 : Int) ≤ 2 ^ 63 - 1 :=
  into_tm_voting_power_nonneg ⟨5, 1⟩ 10 5 (by decide)

/-! ## Claims C1 and C2: validator ordering and validator-set invariants -/

theorem WeightedValidator.cmp_eq_lt_iff [LinearOrder A]
    (a b : WeightedValidator A) :
    WeightedValidator.cmp a b = Ordering.lt ↔
      a.bonded_stake < b.bonded_stake ∨
        (a.bonded_stake = b.bonded_stake ∧ a.address < b.address) := by
  unfold WeightedValidator.cmp
  cases h : compare a.bonded_stake b.bonded_stake
  · simp [compare_lt_iff_lt.mp h]
  · have heq := compare_eq_iff_eq.mp h
    simp [heq, lt_irrefl, compare_lt_iff_lt]
  · have hgt := compare_gt_iff_gt.mp h
    constructor
    · intro hh
      exact absurd hh (by simp)
    · rintro (hlt | ⟨heq, _⟩) <;> omega

theorem WeightedValidator.ranksGe_iff [LinearOrder A]
    (a b : WeightedValidator A) :
    a.ranksGe b ↔
      b.bonded_stake < a.bonded_stake ∨
        (a.bonded_stake = b.bonded_stake ∧ b.address ≤ a.address) := by
  unfold WeightedValidator.ranksGe
  rw [Ne, WeightedValidator.cmp_eq_lt_iff]
  constructor
  · intro hn
    push_neg at hn
    obtain ⟨h1, h2⟩ := hn
    rcases Nat.lt_or_ge b.bonded_stake a.bonded_stake with hlt | hge
    · exact Or.inl hlt
    · have heq : a.bonded_stake = b.bonded_stake := by omega
      exact Or.inr ⟨heq, h2 heq⟩
  · rintro (hlt | ⟨heq, hle⟩) hcon
    · rcases hcon with h | ⟨h, _⟩ <;> omega
    · rcases hcon with h | ⟨_, h⟩
      · omega
      · exact absurd h (not_lt.mpr hle)

theorem WeightedValidator.ranksGe_trans [LinearOrder A]
    (a b c : WeightedValidator A) (hab : a.ranksGe b) (hbc : b.ranksGe c) :
    a.ranksGe c := by
  rw [WeightedValidator.ranksGe_iff] at hab hbc ⊢
  rcases hab with h1 | ⟨h1, h1a⟩ <;> rcases hbc with h2 | ⟨h2, h2a⟩
  · exact Or.inl (by omega)
  · exact Or.inl (by omega)
  · exact Or.inl (by omega)
  · exact Or.inr ⟨by omega, le_trans h2a h1a⟩

theorem WeightedValidator.ranksGe_total [LinearOrder A]
    (a b : WeightedValidator A) : a.ranksGe b ∨ b.ranksGe a := by
  rw [WeightedValidator.ranksGe_iff, WeightedValidator.ranksGe_iff]
  rcases Nat.lt_trichotomy a.bonded_stake b.bonded_stake with h | h | h
  · exact Or.inr (Or.inl h)
  · rcases le_total a.address b.address with ha | ha
    · exact Or.inr (Or.inr ⟨h.symm, ha⟩)
    · exact Or.inl (Or.inr ⟨h, ha⟩)
  · exact Or.inl (Or.inl h)

/-- C2: the natural (derived) ordering of `WeightedValidator` compares
`bonded_stake` first and breaks ties by `address`: `a < b` (that is,
`cmp a b = Less`) iff `a.bonded_stake < b.bonded_stake`, or the stakes are
equal and `a.address < b.address`. -/
theorem weighted_validator_ord_stake_first [LinearOrder A]
    (a b : WeightedValidator A) :
    WeightedValidator.cmp a b = Ordering.lt ↔
      a.bonded_stake < b.bonded_stake ∨
        (a.bonded_stake = b.bonded_stake ∧ a.address < b.address) :=
  WeightedValidator.cmp_eq_lt_iff a b

/-- C1: after validator-set recomputation the active set has at most
`max_validator_slots` members, active and inactive are disjoint, and
every active stake is at least every inactive stake (so in particular
`min(active stakes) ≥ max(inactive stakes)` when both are non-empty).
The candidates are distinct (they come from a set keyed by address). -/
theorem validator_set_recompute_invariant [LinearOrder A]
    (candidates : List (WeightedValidator A)) (max_validator_slots : Nat)
    (h : candidates.Nodup) :
    (recompute_validator_set candidates max_validator_slots).active.length ≤
        max_validator_slots ∧
    (∀ v, v ∈ (recompute_validator_set candidates max_validator_slots).active →
      v ∉ (recompute_validator_set candidates max_validator_slots).inactive) ∧
    (∀ x, x ∈ (recompute_validator_set candidates max_validator_slots).active →
      ∀ y, y ∈ (recompute_validator_set candidates max_validator_slots).inactive →
        y.bonded_stake ≤ x.bonded_stake) := by
  haveI : IsTotal (WeightedValidator A) WeightedValidator.ranksGe :=
    ⟨WeightedValidator.ranksGe_total⟩
  haveI : IsTrans (WeightedValidator A) WeightedValidator.ranksGe :=
    ⟨WeightedValidator.ranksGe_trans⟩
  have hsorted :
      (candidates.insertionSort WeightedValidator.ranksGe).Sorted
        WeightedValidator.ranksGe :=
    List.sorted_insertionSort WeightedValidator.ranksGe candidates
  have hnodup : (candidates.insertionSort WeightedValidator.ranksGe).Nodup :=
    (List.perm_insertionSort WeightedValidator.ranksGe candidates).nodup_iff.mpr h
  refine ⟨?_, ?_, ?_⟩
  · simp only [recompute_validator_set]
    exact List.length_take_le _ _
  · intro v hv hv'
    have hd := List.disjoint_take_drop hnodup (le_refl max_validator_slots)
    simp only [recompute_validator_set] at hv hv'
    exact hd hv hv'
  · intro x hx y hy
    simp only [recompute_validator_set] at hx hy
    have hr := hsorted.rel_of_mem_take_of_mem_drop hx hy
    rw [WeightedValidator.ranksGe_iff] at hr
    rcases hr with h1 | ⟨h1, _⟩ <;> omega

/-- Witness for C1: two distinct validators, one active slot. -/
theorem validator_set_recompute_invariant_witness :
    ([⟨10, 1⟩, ⟨5, 2⟩] : List (WeightedValidator Nat)).Nodup ∧
    ((recompute_validator_set
        ([⟨10, 1⟩, ⟨5, 2⟩] : List (WeightedValidator Nat)) 1).active.length ≤ 1 ∧
     (∀ v, v ∈ (recompute_validator_set
          ([⟨10, 1⟩, ⟨5, 2⟩] : List (WeightedValidator Nat)) 1).active →
        v ∉ (recompute_validator_set
          ([⟨10, 1⟩, ⟨5, 2⟩] : List (WeightedValidator Nat)) 1).inactive) ∧
     (∀ x, x ∈ (recompute_validator_set
          ([⟨10, 1⟩, ⟨5, 2⟩] : List (WeightedValidator Nat)) 1).active →
       ∀ y, y ∈ (recompute_validator_set
          ([⟨10, 1⟩, ⟨5, 2⟩] : List (WeightedValidator Nat)) 1).inactive →
         y.bonded_stake ≤ x.bonded_stake)) :=
  ⟨by decide, validator_set_recompute_invariant _ 1 (by decide)⟩

/-! ## Claims C3 and C4: bond/unbond accounting -/

theorem foldl_add_init [AddCommMonoid τ] (l : List (κ × τ)) (i : τ) :
    l.foldl (fun acc kv => acc + kv.2) i = i + sumDeltas l := by
  induction l generalizing i with
  | nil => simp [sumDeltas]
  | cons kv rest ih =>
    simp only [sumDeltas, List.foldl_cons] at *
    rw [ih (i + kv.2), ih (0 + kv.2), zero_add, add_assoc]

theorem sumDeltas_cons [AddCommMonoid τ] (kv : κ × τ) (l : List (κ × τ)) :
    sumDeltas (kv :: l) = kv.2 + sumDeltas l := by
  simp only [sumDeltas, List.foldl_cons, zero_add]
  exact foldl_add_init l kv.2

theorem sumDeltas_addOrInsert [DecidableEq κ] [AddCommMonoid τ]
    (l : List (κ × τ)) (k : κ) (v : τ) :
    sumDeltas (addOrInsert l k v) = sumDeltas l + v := by
  induction l with
  | nil => simp [addOrInsert, sumDeltas]
  | cons kv rest ih =>
    obtain ⟨k', v'⟩ := kv
    by_cases h : k' = k
    · simp only [addOrInsert, if_pos h, sumDeltas_cons]
      ac_rfl
    · simp only [addOrInsert, if_neg h, sumDeltas_cons, ih]
      rw [add_assoc]

theorem sumDeltas_mergeDeltas [DecidableEq κ] [AddCommMonoid τ]
    (a b : List (κ × τ)) :
    sumDeltas (mergeDeltas a b) = sumDeltas a + sumDeltas b := by
  induction b generalizing a with
  | nil => simp [mergeDeltas, sumDeltas]
  | cons kv rest ih =>
    simp only [mergeDeltas, List.foldl_cons] at *
    rw [ih (addOrInsert a kv.1 kv.2), sumDeltas_addOrInsert,
      sumDeltas_cons, add_assoc]

theorem lookupD_eq_zero_of_not_mem [DecidableEq κ] [Zero τ]
    (l : List (κ × τ)) (k : κ) (h : k ∉ l.map Prod.fst) : lookupD l k = 0 := by
  induction l with
  | nil => rfl
  | cons kv rest ih =>
    obtain ⟨k', v'⟩ := kv
    simp only [List.map_cons, List.mem_cons] at h
    push_neg at h
    simp only [lookupD]
    rw [if_neg (Ne.symm h.1)]
    exact ih h.2

theorem lookupD_addOrInsert_self [DecidableEq κ] [AddCommMonoid τ]
    (l : List (κ × τ)) (k : κ) (v : τ) :
    lookupD (addOrInsert l k v) k = lookupD l k + v := by
  induction l with
  | nil => simp [addOrInsert, lookupD]
  | cons kv rest ih =>
    obtain ⟨k', v'⟩ := kv
    by_cases h : k' = k
    · simp [addOrInsert, if_pos h, lookupD]
    · simp [addOrInsert, if_neg h, lookupD, ih]

theorem lookupD_addOrInsert_ne [DecidableEq κ] [Zero τ] [Add τ]
    (l : List (κ × τ)) {k k' : κ} (h : k ≠ k') (v : τ) :
    lookupD (addOrInsert l k v) k' = lookupD l k' := by
  induction l with
  | nil => simp [addOrInsert, lookupD, if_neg h]
  | cons kv rest ih =>
    obtain ⟨ka, va⟩ := kv
    by_cases hk : ka = k
    · subst hk
      simp [addOrInsert, lookupD, if_neg h]
    · simp [addOrInsert, if_neg hk, lookupD, ih]

theorem lookupD_mergeDeltas [DecidableEq κ] [AddCommMonoid τ]
    (a b : List (κ × τ)) (k : κ) (hb : (b.map Prod.fst).Nodup) :
    lookupD (mergeDeltas a b) k = lookupD a k + lookupD b k := by
  induction b generalizing a with
  | nil => simp [mergeDeltas, lookupD]
  | cons kv rest ih =>
    obtain ⟨kb, vb⟩ := kv
    simp only [List.map_cons, List.nodup_cons] at hb
    simp only [mergeDeltas, List.foldl_cons]
    rw [show (rest.foldl (fun acc kv => addOrInsert acc kv.1 kv.2)
        (addOrInsert a kb vb)) = mergeDeltas (addOrInsert a kb vb) rest
      from rfl]
    rw [ih (addOrInsert a kb vb) hb.2]
    by_cases hk : kb = k
    · subst hk
      rw [lookupD_addOrInsert_self,
        lookupD_eq_zero_of_not_mem rest kb hb.1]
      simp [lookupD]
    · rw [lookupD_addOrInsert_ne a hk vb]
      simp [lookupD, if_neg hk]

/-- C3: `Bond::sum` equals the sum of all positive deltas minus the
negative delta; when the negative delta exceeds the positive-delta sum,
the subtraction underflows and the operation reports a protocol invariant
violation (`none`) rather than clamping or producing a negative sum.
(`Token` is the spec-modelled unsigned amount with checked subtraction.) -/
theorem bond_sum_checked_spec (b : Bond Nat) :
    (b.neg_deltas ≤ sumDeltas b.pos_deltas →
      Bond.sum_checked b = some (sumDeltas b.pos_deltas - b.neg_deltas)) ∧
    (sumDeltas b.pos_deltas < b.neg_deltas → Bond.sum_checked b = none) := by
  constructor
  · intro h
    simp [Bond.sum_checked, h]
  · intro h
    simp [Bond.sum_checked, Nat.not_le.mpr h]

/-- Witness for C3: `{pos: {0 ↦ 5}, neg: 2}` sums to 3; `{pos: {0 ↦ 1},
neg: 5}` underflows and reports the violation. -/
theorem bond_sum_checked_spec_witness :
    (2 ≤ sumDeltas [((⟨0⟩ : Epoch), (5 : Nat))] ∧
      Bond.sum_checked ⟨[(⟨0⟩, 5)], 2⟩ = some 3) ∧
    (sumDeltas [((⟨0⟩ : Epoch), (1 : Nat))] < 5 ∧
      Bond.sum_checked ⟨[(⟨0⟩, 1)], 5⟩ = none) :=
  ⟨⟨by decide, (bond_sum_checked_spec ⟨[(⟨0⟩, 5)], 2⟩).1 (by decide)⟩,
   ⟨by decide, (bond_sum_checked_spec ⟨[(⟨0⟩, 1)], 5⟩).2 (by decide)⟩⟩

/-- C4: the additive law `(a + b).sum() = a.sum() + b.sum()` for bonds and
unbonds (over the integer token change type), and the merge combines the
epoch-keyed maps by summing values on shared keys, never by replacement:
for every key, the merged map holds the sum of the two values. -/
theorem bond_unbond_add_sum_law :
    (∀ a b : Bond Int, (Bond.add a b).sum = a.sum + b.sum) ∧
    (∀ a b : Unbond Int, (Unbond.add a b).sum = a.sum + b.sum) ∧
    (∀ (a b : Bond Int) (k : Epoch), (b.pos_deltas.map Prod.fst).Nodup →
      lookupD (Bond.add a b).pos_deltas k =
        lookupD a.pos_deltas k + lookupD b.pos_deltas k) := by
  refine ⟨?_, ?_, ?_⟩
  · intro a b
    simp only [Bond.add, Bond.sum, sumDeltas_mergeDeltas]
    rw [sub_add_sub_comm]
  · intro a b
    simp only [Unbond.add, Unbond.sum, sumDeltas_mergeDeltas]
  · intro a b k hb
    exact lookupD_mergeDeltas a.pos_deltas b.pos_deltas k hb

/-! ## Claim C9: hash hex round-trip -/

theorem hexDigitVal_hexDigitUpper : ∀ n < 16,
    hexDigitVal (hexDigitUpper n) = some n := by decide

theorem isUpperHexDigit_hexDigitUpper : ∀ n < 16,
    isUpperHexDigit (hexDigitUpper n) := by decide

theorem hexJoin_length (bs : List Nat) :
    ((bs.map byteToHexUpper).flatten).length = 2 * bs.length := by
  induction bs with
  | nil => rfl
  | cons b rest ih =>
    simp only [List.map_cons, List.flatten_cons, List.length_append, ih,
      byteToHexUpper, List.length_cons, List.length_nil, List.length_cons]
    omega

theorem hexJoin_upper (bs : List Nat) (h : ∀ b ∈ bs, b < 256) :
    ∀ c ∈ (bs.map byteToHexUpper).flatten, isUpperHexDigit c := by
  induction bs with
  | nil => intro c hc; simp at hc
  | cons b rest ih =>
    intro c hc
    have hb : b < 256 := h b (List.mem_cons_self b rest)
    simp only [List.map_cons, List.flatten_cons, List.mem_append,
      byteToHexUpper, List.mem_cons, List.not_mem_nil, or_false] at hc
    rcases hc with (hc | hc) | hc
    · exact hc ▸ isUpperHexDigit_hexDigitUpper _ (by omega)
    · exact hc ▸ isUpperHexDigit_hexDigitUpper _ (by omega)
    · exact ih (fun x hx => h x (List.mem_cons_of_mem _ hx)) c hc

theorem decodeHexPairs_encode (bs : List Nat) (h : ∀ b ∈ bs, b < 256) :
    decodeHexPairs ((bs.map byteToHexUpper).flatten) = some bs := by
  induction bs with
  | nil => rfl
  | cons b rest ih =>
    have hb : b < 256 := h b (List.mem_cons_self b rest)
    have h1 : hexDigitVal (hexDigitUpper (b / 16)) = some (b / 16) :=
      hexDigitVal_hexDigitUpper _ (by omega)
    have h2 : hexDigitVal (hexDigitUpper (b % 16)) = some (b % 16) :=
      hexDigitVal_hexDigitUpper _ (by omega)
    have ih' := ih (fun x hx => h x (List.mem_cons_of_mem _ hx))
    simp only [List.map_cons, List.flatten_cons, byteToHexUpper,
      List.cons_append, List.nil_append]
    simp only [decodeHexPairs, h1, h2, ih']
    rw [Nat.div_add_mod]

theorem decodeHexPairs_eq_none :
    ∀ s : List Char, (∃ c, c ∈ s ∧ hexDigitVal c = none) →
      decodeHexPairs s = none
  | [], h => absurd h (by simp)
  | [c], _ => rfl
  | c1 :: c2 :: rest, h => by
    obtain ⟨c, hc, hval⟩ := h
    simp only [List.mem_cons] at hc
    rcases hc with rfl | rfl | hc
    · simp [decodeHexPairs, hval]
    · cases h1 : hexDigitVal c1 <;> simp [decodeHexPairs, h1, hval]
    · have hrest := decodeHexPairs_eq_none rest ⟨c, hc, hval⟩
      cases h1 : hexDigitVal c1 <;> cases h2 : hexDigitVal c2 <;>
        simp [decodeHexPairs, h1, h2, hrest]

/-- C9: formatting a 32-byte hash yields exactly 64 uppercase hex
characters and re-parsing that string yields the identical bytes; any
string that is not exactly 64 hex characters is rejected with a
length/format error, never accepted. -/
theorem hash_hex_roundtrip (h : Hash)
    (hwf : h.bytes.length = 32 ∧ ∀ b ∈ h.bytes, b < 256) :
    (Hash.toHexUpper h).length = 64 ∧
    (∀ c ∈ Hash.toHexUpper h, isUpperHexDigit c) ∧
    Hash.tryFromStr (Hash.toHexUpper h) = Except.ok h ∧
    (∀ s : List Char, ¬(s.length = 64 ∧ ∀ c ∈ s, hexDigitVal c ≠ none) →
      ∃ e, Hash.tryFromStr s = Except.error e) := by
  obtain ⟨hlen, hbytes⟩ := hwf
  have hjlen : (Hash.toHexUpper h).length = 64 := by
    simp only [Hash.toHexUpper, hexJoin_length, hlen]
  refine ⟨hjlen, hexJoin_upper h.bytes hbytes, ?_, ?_⟩
  · simp only [Hash.tryFromStr, hjlen]
    rw [if_neg (by omega)]
    simp only [Hash.toHexUpper, decodeHexPairs_encode h.bytes hbytes]
  · intro s hs
    by_cases hsl : s.length = 64
    · push_neg at hs
      obtain ⟨c, hc, hcv⟩ := hs hsl
      refine ⟨HashStrError.InvalidHexCharacter, ?_⟩
      simp only [Hash.tryFromStr, hsl]
      rw [if_neg (by omega)]
      simp only [decodeHexPairs_eq_none s ⟨c, hc, hcv⟩]
    · exact ⟨HashStrError.InvalidStringLength, by
        simp only [Hash.tryFromStr, if_pos hsl]⟩

/-- Witness for C9 at the all-zero 32-byte hash. -/
theorem hash_hex_roundtrip_witness :
    ((Hash.mk (List.replicate 32 0)).bytes.length = 32 ∧
      ∀ b ∈ (Hash.mk (List.replicate 32 0)).bytes, b < 256) ∧
    ((Hash.toHexUpper ⟨List.replicate 32 0⟩).length = 64 ∧
     (∀ c ∈ Hash.toHexUpper ⟨List.replicate 32 0⟩, isUpperHexDigit c) ∧
     Hash.tryFromStr (Hash.toHexUpper ⟨List.replicate 32 0⟩) =
       Except.ok ⟨List.replicate 32 0⟩ ∧
     (∀ s : List Char, ¬(s.length = 64 ∧ ∀ c ∈ s, hexDigitVal c ≠ none) →
       ∃ e, Hash.tryFromStr s = Except.error e)) :=
  ⟨by decide, hash_hex_roundtrip ⟨List.replicate 32 0⟩ (by decide)⟩

/-- Witness for C4's key-wise merge at the shared key `1`:
`{1 ↦ 5} + {1 ↦ 2, 2 ↦ 3}` holds `7` at key `1`. -/
theorem bond_unbond_add_sum_law_witness :
    (([((⟨1⟩ : Epoch), (2 : Int)), (⟨2⟩, 3)].map Prod.fst).Nodup) ∧
    lookupD (Bond.add (⟨[(⟨1⟩, 5)], 0⟩ : Bond Int)
        ⟨[(⟨1⟩, 2), (⟨2⟩, 3)], 0⟩).pos_deltas ⟨1⟩ =
      lookupD [((⟨1⟩ : Epoch), (5 : Int))] ⟨1⟩ +
        lookupD [((⟨1⟩ : Epoch), (2 : Int)), (⟨2⟩, 3)] ⟨1⟩ :=
  ⟨by decide,
   bond_unbond_add_sum_law.2.2 ⟨[(⟨1⟩, 5)], 0⟩ ⟨[(⟨1⟩, 2), (⟨2⟩, 3)], 0⟩
     ⟨1⟩ (by decide)⟩

end Namada

namespace Namada

theorem splitOnce_append (p r : List Char) (hp : '/' ∉ p) :
    splitOnce '/' (p ++ '/' :: r) = some (p, r) := by
  induction p with
  | nil => simp [splitOnce]
  | cons c cs ih =>
    simp only [List.mem_cons] at hp
    push_neg at hp
    simp only [List.cons_append, List.append_eq, splitOnce, ih hp.2]
    rw [if_neg (Ne.symm hp.1)]

theorem splitAll_ne_nil (sep : Char) (l : List Char) : splitAll sep l ≠ [] := by
  cases l with
  | nil => simp [splitAll]
  | cons c cs =>
    simp only [splitAll]
    cases h : splitAll sep cs with
    | nil => simp
    | cons seg rest => by_cases hc : c = sep <;> simp [hc]

theorem splitAll_no_sep (s : List Char) (h : '/' ∉ s) :
    splitAll '/' s = [s] := by
  induction s with
  | nil => rfl
  | cons c cs ih =>
    simp only [List.mem_cons] at h
    push_neg at h
    simp only [splitAll, ih h.2]
    rw [if_neg (Ne.symm h.1)]

theorem splitAll_append (s t : List Char) (h : '/' ∉ s) :
    splitAll '/' (s ++ '/' :: t) = s :: splitAll '/' t := by
  induction s with
  | nil =>
    simp only [List.nil_append, splitAll]
    cases ht : splitAll '/' t with
    | nil => exact absurd ht (splitAll_ne_nil '/' t)
    | cons seg rest => simp
  | cons c cs ih =>
    simp only [List.mem_cons] at h
    push_neg at h
    simp only [List.cons_append, List.append_eq, splitAll, ih h.2]
    rw [if_neg (Ne.symm h.1)]

theorem splitAll_joinSep (segs : List (List Char)) (hne : segs ≠ [])
    (h : ∀ seg ∈ segs, '/' ∉ seg) :
    splitAll '/' (joinSep '/' segs) = segs := by
  induction segs with
  | nil => exact absurd rfl hne
  | cons s rest ih =>
    cases rest with
    | nil =>
      simp only [joinSep]
      exact splitAll_no_sep s (h s (List.mem_cons_self s []))
    | cons s2 rest2 =>
      rw [show joinSep '/' (s :: s2 :: rest2) =
        s ++ '/' :: joinSep '/' (s2 :: rest2) from rfl]
      rw [splitAll_append _ _ (h s (List.mem_cons_self _ _))]
      rw [ih (by simp) (fun seg hs => h seg (List.mem_cons_of_mem _ hs))]

theorem key_parse_toStr (k : Key) (hk : Key.wf k) :
    Key.parse (Key.toStr k) = Except.ok k := by
  obtain ⟨hne, hsegs⟩ := hk
  unfold Key.parse Key.toStr
  rw [splitAll_joinSep k.segments hne (fun seg hs => (hsegs seg hs).2)]
  rw [if_pos (by
    rw [List.all_eq_true]
    intro seg hs
    exact decide_eq_true ((hsegs seg hs).1))]

theorem hexDigitVal_hexDigitLower : ∀ n < 16,
    hexDigitVal (hexDigitLower n) = some n := by decide

theorem lowerHexJoin_length (bs : List Nat) :
    ((bs.map byteToHexLower).flatten).length = 2 * bs.length := by
  induction bs with
  | nil => rfl
  | cons b rest ih =>
    simp only [List.map_cons, List.flatten_cons, List.length_append, ih,
      byteToHexLower, List.length_cons, List.length_nil]
    omega

theorem decodeHexPairs_encodeLower (bs : List Nat) (h : ∀ b ∈ bs, b < 256) :
    decodeHexPairs ((bs.map byteToHexLower).flatten) = some bs := by
  induction bs with
  | nil => rfl
  | cons b rest ih =>
    have hb : b < 256 := h b (List.mem_cons_self b rest)
    have h1 : hexDigitVal (hexDigitLower (b / 16)) = some (b / 16) :=
      hexDigitVal_hexDigitLower _ (by omega)
    have h2 : hexDigitVal (hexDigitLower (b % 16)) = some (b % 16) :=
      hexDigitVal_hexDigitLower _ (by omega)
    have ih' := ih (fun x hx => h x (List.mem_cons_of_mem _ hx))
    simp only [List.map_cons, List.flatten_cons, byteToHexLower,
      List.cons_append, List.nil_append]
    simp only [decodeHexPairs, h1, h2, ih']
    rw [Nat.div_add_mod]

theorem asset_parse_toStr (a : AssetType) (ha : AssetType.wf a) :
    AssetType.parse (AssetType.toStr a) = Except.ok a := by
  obtain ⟨hlen, hbytes⟩ := ha
  unfold AssetType.parse AssetType.toStr
  rw [if_neg (by rw [lowerHexJoin_length, hlen]; omega)]
  rw [decodeHexPairs_encodeLower a.identifier hbytes]

theorem format_with_slash_ne (p r t : List Char) (ht : '/' ∉ t) :
    p ++ '/' :: r ≠ t := fun h =>
  ht (h ▸ List.mem_append_right p (List.mem_cons_self _ _))

/-- C8: for every valid RPC query path (the three bare paths, the three
storage-key paths and the conversion asset path), parsing its formatted
string yields the same `Path` (hence re-formatting yields the identical
string); and every string matching none of these shapes — not a bare
path, and with no `/` or an unrecognized first segment — parses to the
unrecognized-path condition `InvalidPath`, never a panic (the parser is a
total function). -/
theorem path_parse_format_roundtrip (p : Path) (s : List Char)
    (hp : Path.wf p)
    (hs1 : s ≠ DRY_RUN_TX_PATH ∧ s ≠ EPOCH_PATH ∧ s ≠ RESULTS_PATH)
    (hs2 : ∀ pfx rest, splitOnce '/' s = some (pfx, rest) →
      pfx ≠ VALUE_PREFIX ∧ pfx ≠ PREFIX_PREFIX ∧ pfx ≠ HAS_KEY_PREFIX ∧
        pfx ≠ CONVERSION_KEY_PREFIX) :
    Path.fromStr (Path.format p) = Except.ok p ∧
    Path.fromStr s = Except.error (PathParseError.InvalidPath s) := by
  constructor
  · cases p with
    | DryRunTx => rfl
    | Epoch => rfl
    | Results => rfl
    | Value k =>
      have hk : Key.wf k := hp
      simp only [Path.format, Path.fromStr]
      rw [if_neg (format_with_slash_ne _ _ _ (by decide)),
        if_neg (format_with_slash_ne _ _ _ (by decide)),
        if_neg (format_with_slash_ne _ _ _ (by decide))]
      simp only [splitOnce_append _ _ (by decide : '/' ∉ VALUE_PREFIX)]
      rw [if_pos trivial, key_parse_toStr k hk]
    | Prefix k =>
      have hk : Key.wf k := hp
      simp only [Path.format, Path.fromStr]
      rw [if_neg (format_with_slash_ne _ _ _ (by decide)),
        if_neg (format_with_slash_ne _ _ _ (by decide)),
        if_neg (format_with_slash_ne _ _ _ (by decide))]
      simp only [splitOnce_append _ _ (by decide : '/' ∉ PREFIX_PREFIX)]
      rw [if_neg (by decide), if_pos trivial, key_parse_toStr k hk]
    | HasKey k =>
      have hk : Key.wf k := hp
      simp only [Path.format, Path.fromStr]
      rw [if_neg (format_with_slash_ne _ _ _ (by decide)),
        if_neg (format_with_slash_ne _ _ _ (by decide)),
        if_neg (format_with_slash_ne _ _ _ (by decide))]
      simp only [splitOnce_append _ _ (by decide : '/' ∉ HAS_KEY_PREFIX)]
      rw [if_neg (by decide), if_neg (by decide), if_pos trivial,
        key_parse_toStr k hk]
    | Conversion a =>
      have ha : AssetType.wf a := hp
      simp only [Path.format, Path.fromStr]
      rw [if_neg (format_with_slash_ne _ _ _ (by decide)),
        if_neg (format_with_slash_ne _ _ _ (by decide)),
        if_neg (format_with_slash_ne _ _ _ (by decide))]
      simp only [splitOnce_append _ _ (by decide : '/' ∉ CONVERSION_KEY_PREFIX)]
      rw [if_neg (by decide), if_neg (by decide), if_neg (by decide),
        if_pos trivial, asset_parse_toStr a ha]
  · unfold Path.fromStr
    rw [if_neg hs1.1, if_neg hs1.2.1, if_neg hs1.2.2]
    cases hsp : splitOnce '/' s with
    | none => rfl
    | some pr =>
      obtain ⟨pfx, rest⟩ := pr
      obtain ⟨h1, h2, h3, h4⟩ := hs2 pfx rest hsp
      simp only
      rw [if_neg h1, if_neg h2, if_neg h3, if_neg h4]

end Namada

namespace Namada

/-- Witness for C8: the path `value/a` round-trips, and the string
`bogus` yields the unrecognized-path condition. -/
theorem path_parse_format_roundtrip_witness :
    Path.fromStr (Path.format (Path.Value ⟨[['a']]⟩)) =
      Except.ok (Path.Value ⟨[['a']]⟩) ∧
    Path.fromStr "bogus".toList =
      Except.error (PathParseError.InvalidPath "bogus".toList) :=
  path_parse_format_roundtrip (Path.Value ⟨[['a']]⟩) "bogus".toList
    ⟨by decide, by decide⟩
    ⟨by decide, by decide, by decide⟩
    (fun pfx rest h => nomatch h)
end Namada
